import Mathlib

/-!
Verification of the tool-augmented streaming completion orchestrator of
SparrowAI (`src-tauri/src/chat.rs`).

The development shallowly embeds the Rust source:

* `JsonVal`, `parseJson`, `render` model the external `serde_json` library
  (values, `from_str::<Value>`, `to_string`).  Objects are kept as
  key-sorted association lists, mirroring `serde_json::Map`'s default
  `BTreeMap` backing (sorted iteration, duplicate keys resolved by
  last-insert-wins).  Numbers are kept in their source textual form; the
  exact float formatting of `serde_json` is not modelled, and neither is
  its recursion-depth limit nor surrogate-pair decoding of `\u` escapes —
  none of the verified claims depend on those.
* The tag scanner (`extract_all_tool_calls_from_xml`,
  `has_incomplete_tool_call`, `check_if_continuation_needed`) is embedded
  over `List Char`.  The Rust code works with byte offsets into UTF-8
  `&str`; since both tags are pure ASCII, occurrences of the tags always
  fall on character boundaries and the character-level embedding is
  faithful.
* The streaming loop of `chat_with_loaded_model_streaming` and
  `continue_conversation_after_tools` is embedded as a pure state-passing
  function over an explicit chunk list; the MCP tool invoker, the stream
  creation of the OpenAI client, and the event sink are external
  collaborators, modelled respectively as a function parameter, an
  `Except`-valued parameter, and an ordered event log in the turn state.
-/

namespace SparrowAI

/-! ### The `serde_json` value model -/

/-- A JSON value as `serde_json::Value`.  `jnum` keeps the number's source
text (exact numeric formatting is irrelevant to every claim). -/
inductive JsonVal where
  | jnull : JsonVal
  | jbool : Bool → JsonVal
  | jnum : String → JsonVal
  | jstr : String → JsonVal
  | jarr : List JsonVal → JsonVal
  | jobj : List (String × JsonVal) → JsonVal
deriving Repr, Inhabited

/-- Lexicographic string order via characters.  It agrees with Rust's
byte-wise `Ord` for `String`, since UTF-8 byte order coincides with
scalar-value order. -/
def strLtChars : List Char → List Char → Bool
  | [], [] => false
  | [], _ :: _ => true
  | _ :: _, [] => false
  | a :: as, b :: bs =>
    if a < b then true
    else if b < a then false
    else strLtChars as bs

def strLt (a b : String) : Bool := strLtChars a.toList b.toList

/-- `BTreeMap::insert`: keep keys sorted, overwrite an equal key. -/
def mapInsert (k : String) (v : JsonVal) :
    List (String × JsonVal) → List (String × JsonVal)
  | [] => [(k, v)]
  | (k', v') :: rest =>
    if strLt k k' then (k, v) :: (k', v') :: rest
    else if k = k' then (k, v) :: rest
    else (k', v') :: mapInsert k v rest

/-- Build a `serde_json::Map` from the members in source order
(`map.insert` per member, so a duplicate key keeps the later value). -/
def buildMap (pairs : List (String × JsonVal)) : List (String × JsonVal) :=
  pairs.foldl (fun m kv => mapInsert kv.1 kv.2 m) []

/-- `Value::get(key)`: field lookup, `None` on non-objects. -/
def JsonVal.getField : JsonVal → String → Option JsonVal
  | .jobj fields, key => fields.lookup key
  | _, _ => none

/-- `Value::as_str()`. -/
def JsonVal.asStr : JsonVal → Option String
  | .jstr s => some s
  | _ => none

/-- `Value::as_object()`. -/
def JsonVal.asObject : JsonVal → Option (List (String × JsonVal))
  | .jobj fields => some fields
  | _ => none

/-- `Value::is_null()`. -/
def JsonVal.isNull : JsonVal → Bool
  | .jnull => true
  | _ => false

/-! #### Parsing (`serde_json::from_str::<Value>`) -/

/-- JSON insignificant whitespace (space, tab, line feed, carriage
return). -/
def isJsonWs (c : Char) : Bool :=
  let n := c.toNat
  n == 32 || n == 9 || n == 10 || n == 13

def dropWs (cs : List Char) : List Char := cs.dropWhile isJsonWs

def isDigitCh (c : Char) : Bool := '0' ≤ c && c ≤ '9'

def hexDigitVal (c : Char) : Option Nat :=
  let n := c.toNat
  if 48 ≤ n && n ≤ 57 then some (n - 48)
  else if 97 ≤ n && n ≤ 102 then some (n - 87)
  else if 65 ≤ n && n ≤ 70 then some (n - 55)
  else none

/-- The short escapes accepted after a backslash in a JSON string. -/
def escCharOf (e : Char) : Option Char :=
  if e == '"' || e == '\\' || e == '/' then some e
  else if e == 'n' then some '\n'
  else if e == 't' then some '\t'
  else if e == 'r' then some '\r'
  else if e == 'b' then some (Char.ofNat 8)
  else if e == 'f' then some (Char.ofNat 12)
  else none

/-- Scan a JSON string body after its opening quote; yields the decoded
content and the input after the closing quote.  Unescaped control
characters are rejected, as `serde_json` does. -/
def scanString (fuel : Nat) (acc : List Char) (cs : List Char) :
    Option (String × List Char) :=
  match fuel with
  | 0 => none
  | fuel + 1 =>
    match cs with
    | [] => none
    | c :: rest =>
      if c == '"' then some (String.mk acc.reverse, rest)
      else if c == '\\' then
        match rest with
        | 'u' :: h1 :: h2 :: h3 :: h4 :: rest2 =>
          match hexDigitVal h1, hexDigitVal h2, hexDigitVal h3, hexDigitVal h4 with
          | some a, some b, some c2, some d =>
            scanString fuel (Char.ofNat (((a * 16 + b) * 16 + c2) * 16 + d) :: acc) rest2
          | _, _, _, _ => none
        | e :: rest2 =>
          match escCharOf e with
          | some ch => scanString fuel (ch :: acc) rest2
          | none => none
        | [] => none
      else if c.toNat < 32 then none
      else scanString fuel (c :: acc) rest

/-- Scan a JSON number (`-? int frac? exp?`, no leading zeros); yields its
source characters and the rest of the input. -/
def scanNumber (cs : List Char) : Option (List Char × List Char) :=
  let (sign, cs1) : List Char × List Char :=
    match cs with
    | '-' :: r => (['-'], r)
    | _ => ([], cs)
  let intPart : Option (List Char × List Char) :=
    match cs1 with
    | '0' :: r => some (sign ++ ['0'], r)
    | c :: r =>
      if isDigitCh c then some (sign ++ c :: r.takeWhile isDigitCh, r.dropWhile isDigitCh)
      else none
    | [] => none
  match intPart with
  | none => none
  | some (acc1, rest1) =>
    let fracPart : Option (List Char × List Char) :=
      match rest1 with
      | '.' :: r =>
        let ds := r.takeWhile isDigitCh
        if ds.isEmpty then none else some (acc1 ++ '.' :: ds, r.dropWhile isDigitCh)
      | _ => some (acc1, rest1)
    match fracPart with
    | none => none
    | some (acc2, rest2) =>
      match rest2 with
      | 'e' :: r => scanExponent acc2 'e' r
      | 'E' :: r => scanExponent acc2 'E' r
      | _ => some (acc2, rest2)
where
  scanExponent (acc : List Char) (e : Char) (r : List Char) :
      Option (List Char × List Char) :=
    let (sgn, r1) : List Char × List Char :=
      match r with
      | '+' :: r' => (['+'], r')
      | '-' :: r' => (['-'], r')
      | _ => ([], r)
    let ds := r1.takeWhile isDigitCh
    if ds.isEmpty then none
    else some (acc ++ e :: (sgn ++ ds), r1.dropWhile isDigitCh)

mutual

/-- Parse one JSON value (recursive descent on a fuel counter; the entry
point supplies ample fuel, so exhaustion never occurs on real input). -/
def parseVal : Nat → List Char → Option (JsonVal × List Char)
  | 0, _ => none
  | fuel + 1, cs =>
    match dropWs cs with
    | 'n' :: 'u' :: 'l' :: 'l' :: r => some (.jnull, r)
    | 't' :: 'r' :: 'u' :: 'e' :: r => some (.jbool true, r)
    | 'f' :: 'a' :: 'l' :: 's' :: 'e' :: r => some (.jbool false, r)
    | '"' :: r => (scanString (r.length + 1) [] r).map (fun p => (.jstr p.1, p.2))
    | '[' :: r =>
      match dropWs r with
      | ']' :: r2 => some (.jarr [], r2)
      | r2 => (parseItems fuel r2).map (fun p => (.jarr p.1, p.2))
    | '{' :: r =>
      match dropWs r with
      | '}' :: r2 => some (.jobj [], r2)
      | r2 => (parseMembers fuel r2).map (fun p => (.jobj (buildMap p.1), p.2))
    | cs2 => (scanNumber cs2).map (fun p => (.jnum (String.mk p.1), p.2))

/-- Parse one-or-more comma-separated array items up to `]`. -/
def parseItems : Nat → List Char → Option (List JsonVal × List Char)
  | 0, _ => none
  | fuel + 1, cs =>
    match parseVal fuel cs with
    | none => none
    | some (v, r) =>
      match dropWs r with
      | ',' :: r2 => (parseItems fuel r2).map (fun p => (v :: p.1, p.2))
      | ']' :: r2 => some ([v], r2)
      | _ => none

/-- Parse one-or-more `"key": value` members up to `}`, in source order. -/
def parseMembers : Nat → List Char → Option (List (String × JsonVal) × List Char)
  | 0, _ => none
  | fuel + 1, cs =>
    match dropWs cs with
    | '"' :: r =>
      match scanString (r.length + 1) [] r with
      | none => none
      | some (key, r1) =>
        match dropWs r1 with
        | ':' :: r2 =>
          match parseVal fuel r2 with
          | none => none
          | some (v, r3) =>
            match dropWs r3 with
            | ',' :: r4 => (parseMembers fuel r4).map (fun p => ((key, v) :: p.1, p.2))
            | '}' :: r4 => some ([(key, v)], r4)
            | _ => none
        | _ => none
    | _ => none

end

/-- `serde_json::from_str::<Value>`: parse a complete document, requiring
the whole input (bar trailing whitespace) to be consumed. -/
def parseJson (s : String) : Option JsonVal :=
  let cs := s.toList
  match parseVal (2 * cs.length + 2) cs with
  | some (v, rest) => if dropWs rest = [] then some v else none
  | none => none

/-! #### Rendering (`serde_json::to_string`) -/

def hexDigitChar (n : Nat) : Char :=
  if n < 10 then Char.ofNat ('0'.toNat + n) else Char.ofNat ('a'.toNat + n - 10)

/-- Compact-escape one character of a JSON string, as `serde_json` does
(`"` and `\` escaped, control characters via short escapes or `\u00xx`). -/
def escapeJsonChar (c : Char) : String :=
  if c == '"' then "\\\""
  else if c == '\\' then "\\\\"
  else if c == '\n' then "\\n"
  else if c == '\r' then "\\r"
  else if c == '\t' then "\\t"
  else if c.toNat == 8 then "\\b"
  else if c.toNat == 12 then "\\f"
  else if c.toNat < 32 then
    "\\u00" ++ String.mk [hexDigitChar (c.toNat / 16), hexDigitChar (c.toNat % 16)]
  else String.singleton c

def renderString (s : String) : String :=
  "\"" ++ String.join (s.toList.map escapeJsonChar) ++ "\""

mutual

/-- `serde_json::to_string` of a value (compact form, no spaces). -/
def render : JsonVal → String
  | .jnull => "null"
  | .jbool true => "true"
  | .jbool false => "false"
  | .jnum raw => raw
  | .jstr s => renderString s
  | .jarr items => "[" ++ renderItems items ++ "]"
  | .jobj fields => "\x7b" ++ renderFields fields ++ "\x7d"

def renderItems : List JsonVal → String
  | [] => ""
  | [v] => render v
  | v :: rest => render v ++ "," ++ renderItems rest

def renderFields : List (String × JsonVal) → String
  | [] => ""
  | [(k, v)] => renderString k ++ ":" ++ render v
  | (k, v) :: rest => renderString k ++ ":" ++ render v ++ "," ++ renderFields rest

end

/-- `serde_json::to_string(args_obj)` for an argument map. -/
def renderObj (fields : List (String × JsonVal)) : String :=
  "\x7b" ++ renderFields fields ++ "\x7d"

/-! ### The tag scanner (`chat.rs`, `extract_all_tool_calls_from_xml` and
`has_incomplete_tool_call`) -/

def openTag : List Char := "<tool_call>".toList

def closeTag : List Char := "</tool_call>".toList

def responseTag : List Char := "<tool_response>".toList

/-- `str::find(pat)`: index of the leftmost occurrence of `pat`. -/
def findSub (pat : List Char) : List Char → Option Nat
  | [] => if pat.isPrefixOf ([] : List Char) then some 0 else none
  | c :: rest =>
    if pat.isPrefixOf (c :: rest) then some 0
    else (findSub pat rest).map (· + 1)

/-- `str::rfind(pat)`: index of the rightmost occurrence of `pat`. -/
def rfindSub (pat : List Char) : List Char → Option Nat
  | [] => if pat.isPrefixOf ([] : List Char) then some 0 else none
  | c :: rest =>
    match rfindSub pat rest with
    | some i => some (i + 1)
    | none => if pat.isPrefixOf (c :: rest) then some 0 else none

theorem findSub_nil (pat : List Char) :
    findSub pat [] = if pat.isPrefixOf ([] : List Char) then some 0 else none := rfl

theorem findSub_cons (pat : List Char) (c : Char) (rest : List Char) :
    findSub pat (c :: rest) =
      if pat.isPrefixOf (c :: rest) then some 0
      else (findSub pat rest).map (· + 1) := rfl

theorem rfindSub_nil (pat : List Char) :
    rfindSub pat [] = if pat.isPrefixOf ([] : List Char) then some 0 else none := rfl

theorem rfindSub_cons_some {pat : List Char} {c : Char} {rest : List Char} {k : Nat}
    (hr : rfindSub pat rest = some k) :
    rfindSub pat (c :: rest) = some (k + 1) := by
  unfold rfindSub
  rw [hr]

theorem rfindSub_cons_none {pat : List Char} {c : Char} {rest : List Char}
    (hr : rfindSub pat rest = none) :
    rfindSub pat (c :: rest) =
      if pat.isPrefixOf (c :: rest) then some 0 else none := by
  unfold rfindSub
  rw [hr]

theorem findSub_isPrefixOf {pat l : List Char} {i : Nat}
    (h : findSub pat l = some i) : pat.isPrefixOf (l.drop i) = true := by
  induction l generalizing i with
  | nil =>
    rw [findSub_nil] at h
    by_cases hp : pat.isPrefixOf ([] : List Char) = true
    · rw [if_pos hp] at h
      cases h
      simpa using hp
    · rw [if_neg hp] at h
      cases h
  | cons c rest ih =>
    rw [findSub_cons] at h
    by_cases hp : pat.isPrefixOf (c :: rest) = true
    · rw [if_pos hp] at h
      cases h
      simpa using hp
    · rw [if_neg hp] at h
      rcases Option.map_eq_some'.mp h with ⟨j, hj, hji⟩
      subst hji
      rw [List.drop_succ_cons]
      exact ih hj

theorem findSub_min {pat l : List Char} {i : Nat}
    (h : findSub pat l = some i) :
    ∀ j, j < i → pat.isPrefixOf (l.drop j) = false := by
  induction l generalizing i with
  | nil =>
    rw [findSub_nil] at h
    by_cases hp : pat.isPrefixOf ([] : List Char) = true
    · rw [if_pos hp] at h
      cases h
      omega
    · rw [if_neg hp] at h
      cases h
  | cons c rest ih =>
    rw [findSub_cons] at h
    by_cases hp : pat.isPrefixOf (c :: rest) = true
    · rw [if_pos hp] at h
      cases h
      omega
    · rw [if_neg hp] at h
      rcases Option.map_eq_some'.mp h with ⟨k, hk, hki⟩
      subst hki
      intro j hj
      match j with
      | 0 =>
        rw [List.drop_zero]
        exact Bool.eq_false_iff.mpr hp
      | j' + 1 =>
        rw [List.drop_succ_cons]
        exact ih hk j' (by omega)

theorem findSub_none {pat l : List Char}
    (h : findSub pat l = none) :
    ∀ j, pat.isPrefixOf (l.drop j) = false := by
  induction l with
  | nil =>
    rw [findSub_nil] at h
    by_cases hp : pat.isPrefixOf ([] : List Char) = true
    · rw [if_pos hp] at h
      cases h
    · intro j
      rw [List.drop_nil]
      exact Bool.eq_false_iff.mpr hp
  | cons c rest ih =>
    rw [findSub_cons] at h
    by_cases hp : pat.isPrefixOf (c :: rest) = true
    · rw [if_pos hp] at h
      cases h
    · rw [if_neg hp] at h
      have hn : findSub pat rest = none := Option.map_eq_none'.mp h
      intro j
      match j with
      | 0 =>
        rw [List.drop_zero]
        exact Bool.eq_false_iff.mpr hp
      | j' + 1 =>
        rw [List.drop_succ_cons]
        exact ih hn j'

theorem findSub_exists {pat l : List Char} {j : Nat}
    (h : pat.isPrefixOf (l.drop j) = true) :
    ∃ i, findSub pat l = some i ∧ i ≤ j := by
  induction l generalizing j with
  | nil =>
    rw [List.drop_nil] at h
    exact ⟨0, by rw [findSub_nil, if_pos h], Nat.zero_le j⟩
  | cons c rest ih =>
    by_cases hp : pat.isPrefixOf (c :: rest) = true
    · exact ⟨0, by rw [findSub_cons, if_pos hp], Nat.zero_le j⟩
    · match j with
      | 0 =>
        rw [List.drop_zero] at h
        exact absurd h hp
      | j' + 1 =>
        rw [List.drop_succ_cons] at h
        rcases ih h with ⟨i, hi, hle⟩
        refine ⟨i + 1, ?_, by omega⟩
        rw [findSub_cons, if_neg hp, hi]
        rfl

theorem rfindSub_isPrefixOf {pat l : List Char} {i : Nat}
    (h : rfindSub pat l = some i) : pat.isPrefixOf (l.drop i) = true := by
  induction l generalizing i with
  | nil =>
    rw [rfindSub_nil] at h
    by_cases hp : pat.isPrefixOf ([] : List Char) = true
    · rw [if_pos hp] at h
      cases h
      simpa using hp
    · rw [if_neg hp] at h
      cases h
  | cons c rest ih =>
    cases hr : rfindSub pat rest with
    | some k =>
      rw [rfindSub_cons_some hr] at h
      cases h
      rw [List.drop_succ_cons]
      exact ih hr
    | none =>
      rw [rfindSub_cons_none hr] at h
      by_cases hp : pat.isPrefixOf (c :: rest) = true
      · rw [if_pos hp] at h
        cases h
        rw [List.drop_zero]
        exact hp
      · rw [if_neg hp] at h
        cases h

theorem rfindSub_none {pat l : List Char}
    (h : rfindSub pat l = none) :
    ∀ j, pat.isPrefixOf (l.drop j) = false := by
  induction l with
  | nil =>
    rw [rfindSub_nil] at h
    by_cases hp : pat.isPrefixOf ([] : List Char) = true
    · rw [if_pos hp] at h
      cases h
    · intro j
      rw [List.drop_nil]
      exact Bool.eq_false_iff.mpr hp
  | cons c rest ih =>
    cases hr : rfindSub pat rest with
    | some k =>
      rw [rfindSub_cons_some hr] at h
      cases h
    | none =>
      rw [rfindSub_cons_none hr] at h
      by_cases hp : pat.isPrefixOf (c :: rest) = true
      · rw [if_pos hp] at h
        cases h
      · intro j
        match j with
        | 0 =>
          rw [List.drop_zero]
          exact Bool.eq_false_iff.mpr hp
        | j' + 1 =>
          rw [List.drop_succ_cons]
          exact ih hr j'

theorem rfindSub_max {pat l : List Char} {i : Nat}
    (hpat : pat ≠ []) (h : rfindSub pat l = some i) :
    ∀ j, pat.isPrefixOf (l.drop j) = true → j ≤ i := by
  induction l generalizing i with
  | nil =>
    rw [rfindSub_nil] at h
    by_cases hp : pat.isPrefixOf ([] : List Char) = true
    · exact absurd (by simpa using hp) hpat
    · rw [if_neg hp] at h
      cases h
  | cons c rest ih =>
    cases hr : rfindSub pat rest with
    | some k =>
      rw [rfindSub_cons_some hr] at h
      cases h
      intro j hj
      match j with
      | 0 => omega
      | j' + 1 =>
        rw [List.drop_succ_cons] at hj
        have := ih hr j' hj
        omega
    | none =>
      rw [rfindSub_cons_none hr] at h
      by_cases hp : pat.isPrefixOf (c :: rest) = true
      · rw [if_pos hp] at h
        cases h
        intro j hj
        match j with
        | 0 => omega
        | j' + 1 =>
          rw [List.drop_succ_cons] at hj
          rw [rfindSub_none hr j'] at hj
          cases hj
      · rw [if_neg hp] at h
        cases h

theorem rfindSub_exists {pat l : List Char} {j : Nat}
    (h : pat.isPrefixOf (l.drop j) = true) :
    ∃ i, rfindSub pat l = some i := by
  induction l generalizing j with
  | nil =>
    rw [List.drop_nil] at h
    exact ⟨0, by rw [rfindSub_nil, if_pos h]⟩
  | cons c rest ih =>
    cases hr : rfindSub pat rest with
    | some k => exact ⟨k + 1, rfindSub_cons_some hr⟩
    | none =>
      match j with
      | 0 =>
        rw [List.drop_zero] at h
        exact ⟨0, by rw [rfindSub_cons_none hr, if_pos h]⟩
      | j' + 1 =>
        rw [List.drop_succ_cons] at h
        rcases ih h with ⟨i, hi⟩
        rw [hi] at hr
        cases hr

/-- One step of the scanning loop of `extract_all_tool_calls_from_xml`
(`chat.rs:1097-1117`): find the next `<tool_call>`, then the next
`</tool_call>` at-or-after it; yield the inner text and the input past the
closing tag (`search_start = actual_end + 12`).  `11` and `12` are the tag
lengths, as in the source. -/
def nextRegion (rest : List Char) : Option (List Char × List Char) :=
  match findSub openTag rest with
  | none => none
  | some start =>
    match findSub closeTag (rest.drop start) with
    | none => none
    | some j =>
      some (((rest.drop start).drop 11).take (j - 11), (rest.drop start).drop (j + 12))

theorem nextRegion_shrinks {rest inner rest' : List Char}
    (h : nextRegion rest = some (inner, rest')) : rest'.length < rest.length := by
  cases hf : findSub openTag rest with
  | none => simp [nextRegion, hf] at h
  | some start =>
    cases hc : findSub closeTag (rest.drop start) with
    | none => simp [nextRegion, hf, hc] at h
    | some j =>
      simp only [nextRegion, hf, hc, Option.some.injEq, Prod.mk.injEq] at h
      obtain ⟨h1, h2⟩ := h
      have hne : rest ≠ [] := by
        intro hnil
        subst hnil
        rw [findSub_nil, if_neg (by decide)] at hf
        cases hf
      have hpos : 0 < rest.length := List.length_pos.mpr hne
      rw [← h2, List.length_drop, List.length_drop]
      omega

/-- `extract_all_tool_calls_from_xml`'s loop: scan regions left to right,
parse each inner text as JSON, keep those with a string `name` and an
object `arguments` (`chat.rs:1104-1113`). -/
def toolCallOfContent (inner : List Char) : Option (String × String) :=
  match parseJson (String.mk inner) with
  | some parsed =>
    match parsed.getField "name", parsed.getField "arguments" with
    | some nameVal, some argsVal =>
      match nameVal.asStr, argsVal.asObject with
      | some nameStr, some argsObj => some (nameStr, renderObj argsObj)
      | _, _ => none
    | _, _ => none
  | none => none

/-- The scanning loop, structurally recursive on an ample fuel counter
(each iteration consumes at least the closing tag, so `length + 1` rounds
can never be exhausted; the `0` branch is dead code for the fuel the entry
point supplies). -/
def extractLoopF (fuel : Nat) (rest : List Char) : List (String × String) :=
  match fuel with
  | 0 => []
  | fuel + 1 =>
    match nextRegion rest with
    | none => []
    | some (inner, rest') =>
      match toolCallOfContent inner with
      | some call => call :: extractLoopF fuel rest'
      | none => extractLoopF fuel rest'

/-- `extract_all_tool_calls_from_xml(text)` (`chat.rs:1093-1121`). -/
def extract_all_tool_calls_from_xml (text : String) : List (String × String) :=
  extractLoopF (text.toList.length + 1) text.toList

/-- The region scan with the same fuel discipline as `extractLoopF`. -/
def toolCallRegionsF (fuel : Nat) (rest : List Char) : List (List Char) :=
  match fuel with
  | 0 => []
  | fuel + 1 =>
    match nextRegion rest with
    | none => []
    | some (inner, rest') => inner :: toolCallRegionsF fuel rest'

/-- Modelled on the spec's words for the Tag Scanner: the `<tool_call>`
regions of the buffer, found left to right, with no parsing involved.
`extractLoop_eq_filterMap_regions` relates the implementation to it. -/
def toolCallRegions (rest : List Char) : List (List Char) :=
  toolCallRegionsF (rest.length + 1) rest

theorem extractLoopF_succ_none {fuel : Nat} {rest : List Char}
    (h : nextRegion rest = none) : extractLoopF (fuel + 1) rest = [] := by
  show (match nextRegion rest with
        | none => []
        | some (inner, rest') =>
          match toolCallOfContent inner with
          | some call => call :: extractLoopF fuel rest'
          | none => extractLoopF fuel rest') = []
  rw [h]

theorem extractLoopF_succ_some {fuel : Nat} {rest inner rest' : List Char}
    (h : nextRegion rest = some (inner, rest')) :
    extractLoopF (fuel + 1) rest =
      match toolCallOfContent inner with
      | some call => call :: extractLoopF fuel rest'
      | none => extractLoopF fuel rest' := by
  show (match nextRegion rest with
        | none => []
        | some (inner, rest') =>
          match toolCallOfContent inner with
          | some call => call :: extractLoopF fuel rest'
          | none => extractLoopF fuel rest') = _
  rw [h]

theorem toolCallRegionsF_succ_none {fuel : Nat} {rest : List Char}
    (h : nextRegion rest = none) : toolCallRegionsF (fuel + 1) rest = [] := by
  show (match nextRegion rest with
        | none => []
        | some (inner, rest') => inner :: toolCallRegionsF fuel rest') = []
  rw [h]

theorem toolCallRegionsF_succ_some {fuel : Nat} {rest inner rest' : List Char}
    (h : nextRegion rest = some (inner, rest')) :
    toolCallRegionsF (fuel + 1) rest = inner :: toolCallRegionsF fuel rest' := by
  show (match nextRegion rest with
        | none => []
        | some (inner, rest') => inner :: toolCallRegionsF fuel rest') = _
  rw [h]

/-- With any one fuel value, extraction is the region scan filtered
through the well-formedness check. -/
theorem extractLoopF_eq_filterMap (fuel : Nat) (rest : List Char) :
    extractLoopF fuel rest = (toolCallRegionsF fuel rest).filterMap toolCallOfContent := by
  induction fuel generalizing rest with
  | zero => rfl
  | succ fuel ih =>
    cases hr : nextRegion rest with
    | none => rw [extractLoopF_succ_none hr, toolCallRegionsF_succ_none hr]; rfl
    | some p =>
      obtain ⟨inner, rest'⟩ := p
      rw [extractLoopF_succ_some hr, toolCallRegionsF_succ_some hr, List.filterMap_cons]
      cases hc : toolCallOfContent inner with
      | some call => rw [ih]
      | none => rw [ih]

theorem extractLoop_eq_filterMap_regions (rest : List Char) :
    extractLoopF (rest.length + 1) rest = (toolCallRegions rest).filterMap toolCallOfContent :=
  extractLoopF_eq_filterMap (rest.length + 1) rest

/-- With at least one unit of fuel, an empty region scan means exactly
that no complete region starts the scan. -/
theorem toolCallRegionsF_nil_iff (fuel : Nat) (rest : List Char) :
    toolCallRegionsF (fuel + 1) rest = [] ↔ nextRegion rest = none := by
  constructor
  · intro h
    cases hr : nextRegion rest with
    | none => rfl
    | some p =>
      obtain ⟨inner, rest'⟩ := p
      rw [toolCallRegionsF_succ_some hr] at h
      cases h
  · intro h
    exact toolCallRegionsF_succ_none h

/-- `has_incomplete_tool_call(text)` (`chat.rs:1123-1131`): `rfind` the
last `<tool_call>`; incomplete iff no `</tool_call>` occurs from there on. -/
def has_incomplete_tool_call (text : String) : Bool :=
  match rfindSub openTag text.toList with
  | some start =>
    match findSub closeTag (text.toList.drop start) with
    | some _ => false
    | none => true
  | none => false

/-- `check_if_continuation_needed(text)` (`chat.rs:1133-1136`):
`text.contains("<tool_response>")`. -/
def check_if_continuation_needed (text : String) : Bool :=
  (findSub responseTag text.toList).isSome

/-! ### The streaming consumer and tool dispatcher
(`chat_with_loaded_model_streaming`, `chat.rs:653-884`)

The backend stream is an explicit list of `Result`-valued chunks; the MCP
tool invoker is a function parameter; `emit` calls to the event sink are
collected in an ordered log inside the turn state, and every call made to
the invoker is recorded in an audit log (`invocations`). -/

/-- One element of `response.choices`. -/
structure StreamChoice where
  content : Option String
  finish_reason : Option String
deriving Repr, DecidableEq, Inhabited

/-- One `Ok` stream item (`CreateChatCompletionStreamResponse`). -/
structure StreamResponse where
  choices : List StreamChoice
deriving Repr, DecidableEq, Inhabited

/-- An event pushed to the Tauri event sink (`app.emit`). -/
inductive SinkEvent where
  | chatToken : String → Bool → SinkEvent
  | toolCallEvent : String → String → String → SinkEvent
  | chatError : String → SinkEvent
deriving Repr, DecidableEq

/-- One call made to `mcp::call_mcp_tool`: tool name, the raw extracted
arguments string, and the argument map actually passed (`None` when the
dispatch-stage re-parse failed). -/
structure ToolInvocationRec where
  name : String
  raw_args : String
  args_map : Option (List (String × JsonVal))
deriving Repr, Inhabited

/-- The per-turn mutable state of the streaming loop: `full_response`,
`executed_tools`, `needs_continuation` are the source's locals; `events`
is the sink log and `invocations` the invoker audit log. -/
structure TurnState where
  full_response : String
  executed_tools : List String
  needs_continuation : Bool
  events : List SinkEvent
  invocations : List ToolInvocationRec

def initialTurnState : TurnState :=
  { full_response := ""
    executed_tools := []
    needs_continuation := false
    events := []
    invocations := [] }

/-- The external MCP tool invoker (`mcp::call_mcp_tool`): name and
null-stripped argument map to result text or error text. -/
def Invoker : Type :=
  String → Option (List (String × JsonVal)) → Except String String

/-- The dispatch-stage argument re-parse (`chat.rs:699-715`):
`serde_json::from_str::<Map<String, Value>>(&fn_args)`, then
`map.retain(|_k, v| !v.is_null())`; `None` when the parse fails. -/
def parseArgsMap (fn_args : String) : Option (List (String × JsonVal)) :=
  match parseJson fn_args with
  | some (JsonVal.jobj m) => some (m.filter (fun kv => !kv.2.isNull))
  | _ => none

/-- Dispatch of one extracted call (`chat.rs:687-774`): skip an
already-executed signature, otherwise mark it executed first, re-parse the
arguments, invoke the tool, splice the `tool_response` block into the
buffer, forward it to the sink, and set `needs_continuation`. -/
def dispatchCall (invoker : Invoker) (st : TurnState) (call : String × String) :
    TurnState :=
  let tool_signature := call.1 ++ ":" ++ call.2
  if st.executed_tools.contains tool_signature then st
  else
    let st1 : TurnState := { st with executed_tools := tool_signature :: st.executed_tools }
    let args_map := parseArgsMap call.2
    let st2 : TurnState :=
      { st1 with invocations := st1.invocations ++ [ToolInvocationRec.mk call.1 call.2 args_map] }
    match invoker call.1 args_map with
    | .ok tool_result =>
      let tool_response_text := "\n<tool_response>\n" ++ tool_result ++ "\n</tool_response>"
      { st2 with
        events := st2.events ++
          [SinkEvent.toolCallEvent call.1 call.2 tool_result,
           SinkEvent.chatToken tool_response_text false]
        full_response := st2.full_response ++ tool_response_text
        needs_continuation := true }
    | .error e =>
      let error_response_text := "\n<tool_response>\nError: " ++ e ++ "\n</tool_response>"
      { st2 with
        events := st2.events ++ [SinkEvent.chatToken error_response_text false]
        full_response := st2.full_response ++ error_response_text
        needs_continuation := true }

/-- Per-chunk content handling (`chat.rs:672-775`): append to the buffer,
forward the raw token, then rescan the whole buffer and dispatch every
extraction. -/
def processContent (invoker : Invoker) (st : TurnState) (content : String) :
    TurnState :=
  let st1 := { st with
    full_response := st.full_response ++ content
    events := st.events ++ [.chatToken content false] }
  (extract_all_tool_calls_from_xml st1.full_response).foldl (dispatchCall invoker) st1

/-- One choice of a stream response (`chat.rs:668-786`).  The
`finish_reason` arm of the source only logs (including the
`has_incomplete_tool_call` check) and changes no state. -/
def processChoice (invoker : Invoker) (st : TurnState) (c : StreamChoice) :
    TurnState :=
  match c.content with
  | some content => processContent invoker st content
  | none => st

def processResponse (invoker : Invoker) (st : TurnState) (r : StreamResponse) :
    TurnState :=
  r.choices.foldl (processChoice invoker) st

/-- The primary `while let Some(result) = stream.next()` loop
(`chat.rs:663-800`): an `Err` item emits a `chat-error` event and breaks,
leaving the remaining items unconsumed. -/
def processStream (invoker : Invoker) (st : TurnState) :
    List (Except String StreamResponse) → TurnState
  | [] => st
  | .ok r :: rest => processStream invoker (processResponse invoker st r) rest
  | .error e :: _ =>
    { st with events := st.events ++ [.chatError ("Stream error: " ++ e)] }

/-! ### The continuation controller
(`continue_conversation_after_tools`, `chat.rs:886-991`) -/

/-- `ChatMessage` (`chat.rs:19-26`) restricted to the fields the
orchestrator reads, also standing for the request messages built through
the `async_openai` role-specific builders. -/
structure ChatMessage where
  role : String
  content : String
deriving Repr, DecidableEq, Inhabited

/-- Continuation request list (`chat.rs:902-922`): fresh system message,
then `previous_messages` minus its head, then one synthetic assistant
message carrying the whole tool-augmented buffer. -/
def continuationMessages (system_message : String)
    (previous_messages : List ChatMessage)
    (assistant_response_with_tools : String) : List ChatMessage :=
  (ChatMessage.mk "system" system_message :: previous_messages.drop 1)
    ++ [ChatMessage.mk "assistant" assistant_response_with_tools]

/-- Choices loop of the continuation stream (`chat.rs:961-979`): content is
appended and forwarded; a `finish_reason` breaks out of the choices loop. -/
def contProcessChoices (acc : String) (events : List SinkEvent) :
    List StreamChoice → String × List SinkEvent
  | [] => (acc, events)
  | c :: rest =>
    let step : String × List SinkEvent :=
      match c.content with
      | some content => (acc ++ content, events ++ [.chatToken content false])
      | none => (acc, events)
    match c.finish_reason with
    | some _ => step
    | none => contProcessChoices step.1 step.2 rest

/-- Continuation `while let` loop (`chat.rs:958-987`): an `Err` item makes
the whole call return `Err`; events already pushed to the sink remain. -/
def contProcessStream (acc : String) (events : List SinkEvent) :
    List (Except String StreamResponse) → Except String String × List SinkEvent
  | [] => (.ok acc, events)
  | .ok r :: rest =>
    let p := contProcessChoices acc events r.choices
    contProcessStream p.1 p.2 rest
  | .error e :: _ => (.error ("Continuation stream error: " ++ e), events)

/-- `continue_conversation_after_tools` (`chat.rs:886-991`), with the
stream-creation outcome supplied as a parameter.  Returns the result the
source returns plus the sink events it emitted. -/
def continue_conversation_after_tools
    (contCreate : Except String (List (Except String StreamResponse))) :
    Except String String × List SinkEvent :=
  match contCreate with
  | .error e => (.error ("Failed to create continuation stream: " ++ e), [])
  | .ok chunks => contProcessStream "" [] chunks

/-- Rust `continued_response.trim().is_empty()`: the string consists
entirely of whitespace.  (Lean's `Char.isWhitespace` covers the ASCII
whitespace of every input in scope; Rust's `char::is_whitespace` extends
it to exotic Unicode spaces none of the claims involve.) -/
def trimIsEmpty (s : String) : Bool := s.toList.all (fun c => c.isWhitespace)

/-- The turn driver (`chat_with_loaded_model_streaming`, `chat.rs:653-884`)
from primary-stream creation onward: `primaryCreate` and `contCreate` are
the two `create_stream` outcomes.  A hard error is returned only when the
primary stream cannot be created; otherwise the final state is returned,
whose `full_response` is the text the source returns. -/
def run_turn (invoker : Invoker)
    (primaryCreate : Except String (List (Except String StreamResponse)))
    (contCreate : Except String (List (Except String StreamResponse))) :
    Except String TurnState :=
  match primaryCreate with
  | .error e => .error ("Failed to create chat stream: " ++ e)
  | .ok chunks =>
    let st := processStream invoker initialTurnState chunks
    let st1 :=
      if st.needs_continuation && check_if_continuation_needed st.full_response then
        match continue_conversation_after_tools contCreate with
        | (.ok continued_response, contEvents) =>
          if trimIsEmpty continued_response then
            { st with events := st.events ++ contEvents }
          else
            { st with
              full_response := st.full_response ++ continued_response
              events := st.events ++ contEvents }
        | (.error e, contEvents) =>
          let error_msg := "\n\n[Continuation Error: " ++ e ++ "]"
          { st with
            full_response := st.full_response ++ error_msg
            events := st.events ++ contEvents ++ [.chatToken error_msg false] }
      else st
    .ok { st1 with events := st1.events ++ [.chatToken "" true] }

/-! ### The request assembler (`chat.rs:346-362`, `chat.rs:468-530`) -/

/-- `get_conversation_history` (`chat.rs:346-362`): the stored session
messages restricted to the `user`/`assistant` roles. -/
def get_conversation_history (session_messages : List ChatMessage) :
    List ChatMessage :=
  session_messages.filter (fun m => m.role == "user" || m.role == "assistant")

/-- Duplicate suppression (`chat.rs:480-486`): pop the last history entry
when it is a user message equal to the current input. -/
def dropTrailingDuplicateUser (history : List ChatMessage) (message : String) :
    List ChatMessage :=
  match history.getLast? with
  | some last_msg =>
    if last_msg.role == "user" && last_msg.content == message then history.dropLast
    else history
  | none => history

/-- The history loop (`chat.rs:488-515`): push a request message per
`user`/`assistant` entry, silently skip any other role. -/
def historyToReqMessages (history : List ChatMessage) : List ChatMessage :=
  history.foldl
    (fun acc m =>
      if m.role == "user" then acc ++ [ChatMessage.mk "user" m.content]
      else if m.role == "assistant" then acc ++ [ChatMessage.mk "assistant" m.content]
      else acc)
    []

/-- Primary request assembly (`chat.rs:468-530`): system message, then the
trimmed history (when requested, a session exists and the fetch succeeds),
then the current user message. -/
def assemble_messages (system_message : String) (include_history : Option Bool)
    (session_id_present : Bool) (historyFetch : Except String (List ChatMessage))
    (message : String) : List ChatMessage :=
  let base := [ChatMessage.mk "system" system_message]
  let withHistory :=
    if include_history.getD false && session_id_present then
      match historyFetch with
      | .ok session_messages =>
        base ++ historyToReqMessages
          (dropTrailingDuplicateUser (get_conversation_history session_messages) message)
      | .error _ => base
    else base
  withHistory ++ [ChatMessage.mk "user" message]

/-- `chat.rs:549`: `max_tokens.unwrap_or(1000).max(100)` for the primary
request (`u32` values, modelled as `Nat`; no overflow is possible). -/
def effective_max_tokens_primary (max_tokens : Option Nat) : Nat :=
  (max_tokens.getD 1000).max 100

/-- `chat.rs:937`: the same computation for the continuation request. -/
def effective_max_tokens_continuation (max_tokens : Option Nat) : Nat :=
  (max_tokens.getD 1000).max 100

/-! ### Supporting lemmas about tag occurrences -/

/-- No suffix can start with both `<tool_call>` and `</tool_call>`: the
two tags disagree at their second character. -/
theorem openTag_closeTag_clash {s : List Char}
    (h1 : openTag.isPrefixOf s = true) (h2 : closeTag.isPrefixOf s = true) :
    False := by
  rw [List.isPrefixOf_iff_prefix] at h1 h2
  obtain ⟨t1, ht1⟩ := h1
  obtain ⟨t2, ht2⟩ := h2
  have e1 : s[1]? = some 't' := by
    rw [← ht1, List.getElem?_append_left (by decide)]
    decide
  have e2 : s[1]? = some '/' := by
    rw [← ht2, List.getElem?_append_left (by decide)]
    decide
  rw [e1] at e2
  exact absurd e2 (by decide)

/-- A pattern occurrence in a list occurs at the same index in any
extension of it. -/
theorem isPrefixOf_drop_of_prefixed {pat p t : List Char} (hpt : p <+: t) {j : Nat}
    (h : pat.isPrefixOf (p.drop j) = true) : pat.isPrefixOf (t.drop j) = true := by
  rw [List.isPrefixOf_iff_prefix] at h ⊢
  obtain ⟨s, rfl⟩ := hpt
  refine h.trans ?_
  rw [List.drop_append_eq_append_drop]
  exact List.prefix_append _ _

/-- C4's specification-side reading of `has_incomplete_call`: the buffer
has an opening tag, `i` is the last one, and no closing tag occurs after
it. -/
def hasIncompleteSpec (text : String) : Prop :=
  ∃ i, openTag.isPrefixOf (text.toList.drop i) = true
    ∧ (∀ j, openTag.isPrefixOf (text.toList.drop j) = true → j ≤ i)
    ∧ ∀ j, i < j → closeTag.isPrefixOf (text.toList.drop j) = false

theorem has_incomplete_none_open {text : String}
    (hr : rfindSub openTag text.toList = none) :
    has_incomplete_tool_call text = false := by
  unfold has_incomplete_tool_call
  rw [hr]

theorem has_incomplete_found_close {text : String} {start k : Nat}
    (hr : rfindSub openTag text.toList = some start)
    (hc : findSub closeTag (text.toList.drop start) = some k) :
    has_incomplete_tool_call text = false := by
  unfold has_incomplete_tool_call
  rw [hr]
  show (match findSub closeTag (text.toList.drop start) with
        | some _ => false
        | none => true) = false
  rw [hc]

theorem has_incomplete_no_close {text : String} {start : Nat}
    (hr : rfindSub openTag text.toList = some start)
    (hc : findSub closeTag (text.toList.drop start) = none) :
    has_incomplete_tool_call text = true := by
  unfold has_incomplete_tool_call
  rw [hr]
  show (match findSub closeTag (text.toList.drop start) with
        | some _ => false
        | none => true) = true
  rw [hc]

theorem has_incomplete_tool_call_iff (text : String) :
    has_incomplete_tool_call text = true ↔ hasIncompleteSpec text := by
  constructor
  · intro h
    cases hr : rfindSub openTag text.toList with
    | none => rw [has_incomplete_none_open hr] at h; cases h
    | some start =>
      cases hc : findSub closeTag (text.toList.drop start) with
      | some k => rw [has_incomplete_found_close hr hc] at h; cases h
      | none =>
        refine ⟨start, rfindSub_isPrefixOf hr, rfindSub_max (by decide) hr, ?_⟩
        intro j hj
        have hjj := findSub_none hc (j - start)
        rw [List.drop_drop] at hjj
        have heq : start + (j - start) = j := by omega
        rw [heq] at hjj
        exact hjj
  · rintro ⟨i, hocc, hmax, hclose⟩
    rcases rfindSub_exists hocc with ⟨i', hi'⟩
    have h1 : i ≤ i' := rfindSub_max (by decide) hi' i hocc
    have h2 : i' ≤ i := hmax i' (rfindSub_isPrefixOf hi')
    have hii : i' = i := by omega
    subst hii
    have hcnone : findSub closeTag (text.toList.drop i') = none := by
      cases hc : findSub closeTag (text.toList.drop i') with
      | none => rfl
      | some k =>
        have hk := findSub_isPrefixOf hc
        rw [List.drop_drop] at hk
        match k with
        | 0 =>
          rw [Nat.add_zero] at hk
          exact (openTag_closeTag_clash hocc hk).elim
        | k' + 1 =>
          rw [hclose (i' + (k' + 1)) (by omega)] at hk
          cases hk
    exact has_incomplete_no_close hi' hcnone

theorem length_filterMap_toolCalls (l : List (List Char)) :
    (l.filterMap toolCallOfContent).length
      = (l.filter (fun r => (toolCallOfContent r).isSome)).length := by
  induction l with
  | nil => rfl
  | cons a l ih =>
    rw [List.filterMap_cons, List.filter_cons]
    cases h : toolCallOfContent a with
    | some b => simp [h, ih]
    | none => simp [h, ih]

/-! ### The claims -/

/-- **C1.** For every buffer, `extract_all_tool_calls_from_xml` returns
exactly the well-formed tool-call regions in left-to-right document order:
it equals the pure left-to-right region scan filtered through the JSON
well-formedness check (parse as a JSON object with a string `name` and an
object `arguments`), so a region that fails the check contributes nothing
and does not prevent later extractions, and the number of entries equals
the number of well-formed regions. -/
theorem C1_extract_calls_wellformed_regions_in_order (text : String) :
    extract_all_tool_calls_from_xml text
      = (toolCallRegions text.toList).filterMap toolCallOfContent
    ∧ (extract_all_tool_calls_from_xml text).length
      = ((toolCallRegions text.toList).filter
          (fun r => (toolCallOfContent r).isSome)).length := by
  refine ⟨extractLoop_eq_filterMap_regions text.toList, ?_⟩
  rw [extract_all_tool_calls_from_xml, extractLoop_eq_filterMap_regions]
  exact length_filterMap_toolCalls _

/-- **C4.** `has_incomplete_tool_call` is `true` exactly when the buffer
contains a `<tool_call>` opening tag and the last such opening tag has no
`</tool_call>` after it; in particular it is `true` on a buffer ending in
an unterminated `<tool_call>{"name":"x"}` and `false` on a buffer whose
last tool-call block is closed. -/
theorem C4_has_incomplete_call_iff_last_open_unclosed :
    (∀ text : String, has_incomplete_tool_call text = true ↔ hasIncompleteSpec text)
    ∧ has_incomplete_tool_call "leading text <tool_call>\x7b\"name\":\"x\"\x7d" = true
    ∧ has_incomplete_tool_call
        "leading text <tool_call>\x7b\"name\":\"x\",\"arguments\":\x7b\x7d\x7d</tool_call>" = false :=
  ⟨has_incomplete_tool_call_iff, by decide, by decide⟩

/-- **C9.** On both the primary and the continuation request, the
`max_tokens` sent to the backend is `max(requested, 100)` when the caller
supplies a value and `1000` when it omits one; in particular a supplied
value below 100 is silently raised to 100 rather than passed through. -/
theorem C9_effective_max_tokens_clamped :
    (∀ mt : Nat, effective_max_tokens_primary (some mt) = Nat.max mt 100
      ∧ effective_max_tokens_continuation (some mt) = Nat.max mt 100)
    ∧ effective_max_tokens_primary none = 1000
    ∧ effective_max_tokens_continuation none = 1000
    ∧ (∀ mt : Nat, mt < 100 →
        effective_max_tokens_primary (some mt) = 100
        ∧ effective_max_tokens_continuation (some mt) = 100) := by
  refine ⟨fun mt => ⟨rfl, rfl⟩, rfl, rfl, fun mt h => ⟨?_, ?_⟩⟩ <;>
  · show (Option.getD (some mt) 1000).max 100 = 100
    rw [Option.getD_some]
    exact Nat.max_eq_right (Nat.le_of_lt h)

theorem C9_effective_max_tokens_clamped_witness :
    5 < 100 ∧ effective_max_tokens_primary (some 5) = 100
      ∧ effective_max_tokens_continuation (some 5) = 100 :=
  ⟨by decide, (C9_effective_max_tokens_clamped.2.2.2 5 (by decide)).1,
    (C9_effective_max_tokens_clamped.2.2.2 5 (by decide)).2⟩

theorem historyToReqMessages_go (l : List ChatMessage) (acc : List ChatMessage)
    (h : ∀ m ∈ l, m.role = "user" ∨ m.role = "assistant") :
    l.foldl
      (fun acc m =>
        if m.role == "user" then acc ++ [ChatMessage.mk "user" m.content]
        else if m.role == "assistant" then acc ++ [ChatMessage.mk "assistant" m.content]
        else acc)
      acc = acc ++ l := by
  induction l generalizing acc with
  | nil => simp
  | cons m l ih =>
    have hm := h m (List.mem_cons_self m l)
    have hrest : ∀ m' ∈ l, m'.role = "user" ∨ m'.role = "assistant" :=
      fun m' hm' => h m' (List.mem_cons_of_mem m hm')
    rcases hm with hu | ha
    · rw [List.foldl_cons]
      simp only [hu]
      rw [if_pos (by rfl)]
      rw [ih _ hrest]
      have hmk : ChatMessage.mk "user" m.content = m := by
        cases m
        simp_all
      rw [hmk]
      simp
    · rw [List.foldl_cons]
      simp only [ha]
      rw [if_neg (by decide), if_pos (by rfl)]
      rw [ih _ hrest]
      have hmk : ChatMessage.mk "assistant" m.content = m := by
        cases m
        simp_all
      rw [hmk]
      simp

theorem historyToReqMessages_id (l : List ChatMessage)
    (h : ∀ m ∈ l, m.role = "user" ∨ m.role = "assistant") :
    historyToReqMessages l = l := by
  unfold historyToReqMessages
  rw [historyToReqMessages_go l [] h]
  exact List.nil_append l

theorem dropTrailingDuplicateUser_subset (history : List ChatMessage) (message : String) :
    ∀ m ∈ dropTrailingDuplicateUser history message, m ∈ history := by
  intro m hm
  unfold dropTrailingDuplicateUser at hm
  split at hm
  · split at hm
    · exact (List.dropLast_sublist _).subset hm
    · exact hm
  · exact hm

/-- **C10.** With history requested, a session present and the fetch
successful, the assembled request is exactly: the system message, then the
stored history restricted to `user`/`assistant` roles in original order
(minus a trailing user entry equal to the current input), then the current
user message; every entry of any other role is silently omitted. -/
theorem C10_assembled_messages_history_filtered (sys msg : String)
    (session_messages : List ChatMessage) :
    assemble_messages sys (some true) true (.ok session_messages) msg
      = ChatMessage.mk "system" sys
          :: dropTrailingDuplicateUser
              (session_messages.filter
                (fun m => m.role == "user" || m.role == "assistant")) msg
          ++ [ChatMessage.mk "user" msg] := by
  have h0 : assemble_messages sys (some true) true (.ok session_messages) msg
      = ChatMessage.mk "system" sys
          :: historyToReqMessages
              (dropTrailingDuplicateUser
                (session_messages.filter
                  (fun m => m.role == "user" || m.role == "assistant")) msg)
          ++ [ChatMessage.mk "user" msg] := rfl
  have hmem : ∀ m ∈ dropTrailingDuplicateUser
      (session_messages.filter (fun m => m.role == "user" || m.role == "assistant")) msg,
      m.role = "user" ∨ m.role = "assistant" := by
    intro m hm
    have hm2 := dropTrailingDuplicateUser_subset _ msg m hm
    have hrole := (List.mem_filter.mp hm2).2
    simpa using hrole
  rw [h0, historyToReqMessages_id _ hmem]

/-- An always-succeeding invoker, for concrete runs. -/
def okInvoker : Invoker := fun _ _ => Except.ok "ok"

/-- An always-failing invoker, for concrete runs. -/
def errInvoker : Invoker := fun _ _ => Except.error "boom"

/-- A buffer whose single tool-call region has inner text that fails JSON
parsing at the scanner stage (`bad` is not a JSON value). -/
def scannerFailBuffer : String :=
  "<tool_call>\x7b\"name\":\"x\",\"arguments\":bad\x7d</tool_call>"

/-- **C2, counterexample.** The claim says a region whose arguments JSON
fails to parse at the scanner stage is still dispatched once with an empty
arguments map.  The code drops such a region at the scanner instead:
`scannerFailBuffer` has exactly one region, its inner JSON does not parse,
and processing the chunk invokes the tool invoker zero times. -/
theorem C2_counterexample_scanner_failure_never_dispatched :
    toolCallRegions scannerFailBuffer.toList
      = ["\x7b\"name\":\"x\",\"arguments\":bad\x7d".toList]
    ∧ parseJson "\x7b\"name\":\"x\",\"arguments\":bad\x7d" = none
    ∧ (processContent okInvoker initialTurnState scannerFailBuffer).invocations = [] :=
  ⟨rfl, rfl, rfl⟩

/-- **C2, amended.** A region whose inner JSON fails to parse at the
scanner stage is dropped there and never dispatched; it is the
dispatch-stage re-parse of an extracted call's arguments whose failure
does not skip the call: for any extracted call whose signature is new,
the invoker is invoked exactly once, with the re-parse result as the
argument map — `none` (no argument map) when that re-parse fails. -/
theorem C2_amended_dispatch_proceeds_on_reparse_failure
    (invoker : Invoker) (st : TurnState) (name args : String)
    (h : st.executed_tools.contains (name ++ ":" ++ args) = false) :
    (dispatchCall invoker st (name, args)).invocations
      = st.invocations ++ [ToolInvocationRec.mk name args (parseArgsMap args)] := by
  unfold dispatchCall
  rw [if_neg (by rw [h]; exact Bool.false_ne_true)]
  cases hcall : invoker name (parseArgsMap args) with
  | ok r => simp [hcall]
  | error e => simp [hcall]

theorem C2_amended_dispatch_witness :
    initialTurnState.executed_tools.contains ("x" ++ ":" ++ "notjson") = false
    ∧ parseArgsMap "notjson" = none
    ∧ (dispatchCall okInvoker initialTurnState ("x", "notjson")).invocations
        = [ToolInvocationRec.mk "x" "notjson" none] := by
  refine ⟨rfl, rfl, ?_⟩
  rw [C2_amended_dispatch_proceeds_on_reparse_failure okInvoker initialTurnState
    "x" "notjson" rfl]
  rfl

/-- The deduplication signature of a recorded invocation
(`format!("{}:{}", fn_name, fn_args)`). -/
def invSig (inv : ToolInvocationRec) : String := inv.name ++ ":" ++ inv.raw_args

/-- The dispatch invariant: recorded invocations have pairwise-distinct
signatures, and every recorded signature is in `executed_tools`. -/
def DispatchInv (st : TurnState) : Prop :=
  (st.invocations.map invSig).Nodup
    ∧ ∀ inv ∈ st.invocations, st.executed_tools.contains (invSig inv) = true

theorem dispatchCall_preserves_inv (invoker : Invoker) (st : TurnState)
    (call : String × String) (h : DispatchInv st) :
    DispatchInv (dispatchCall invoker st call) := by
  obtain ⟨hnd, hmem⟩ := h
  unfold dispatchCall
  by_cases hc : st.executed_tools.contains (call.1 ++ ":" ++ call.2) = true
  · rw [if_pos hc]
    exact ⟨hnd, hmem⟩
  · rw [if_neg hc]
    dsimp only
    have hnotin : (call.1 ++ ":" ++ call.2) ∉ st.invocations.map invSig := by
      intro hmem2
      rcases List.mem_map.mp hmem2 with ⟨inv, hinv, hsig⟩
      exact hc (hsig ▸ hmem inv hinv)
    have hstep : DispatchInv
        { st with
          executed_tools := (call.1 ++ ":" ++ call.2) :: st.executed_tools
          invocations := st.invocations ++
            [ToolInvocationRec.mk call.1 call.2 (parseArgsMap call.2)] } := by
      constructor
      · rw [List.map_append]
        simp only [List.map_cons, List.map_nil, invSig]
        rw [List.nodup_append]
        refine ⟨hnd, List.nodup_singleton _, ?_⟩
        intro a ha hb
        simp only [List.mem_singleton] at hb
        subst hb
        exact hnotin ha
      · intro inv hinv
        rcases List.mem_append.mp hinv with hl | hr
        · rw [List.contains_cons]
          rw [hmem inv hl]
          simp
        · simp only [List.mem_singleton] at hr
          subst hr
          rw [List.contains_cons]
          simp [invSig]
    cases hcall : invoker call.1 (parseArgsMap call.2) with
    | ok r => exact ⟨hstep.1, fun inv hinv => hstep.2 inv hinv⟩
    | error e => exact ⟨hstep.1, fun inv hinv => hstep.2 inv hinv⟩

theorem foldl_dispatch_preserves_inv (invoker : Invoker)
    (calls : List (String × String)) (st : TurnState) (h : DispatchInv st) :
    DispatchInv (calls.foldl (dispatchCall invoker) st) := by
  induction calls generalizing st with
  | nil => exact h
  | cons c calls ih =>
    rw [List.foldl_cons]
    exact ih _ (dispatchCall_preserves_inv invoker st c h)

theorem processContent_preserves_inv (invoker : Invoker) (st : TurnState)
    (content : String) (h : DispatchInv st) :
    DispatchInv (processContent invoker st content) := by
  unfold processContent
  exact foldl_dispatch_preserves_inv invoker _ _ ⟨h.1, fun inv hinv => h.2 inv hinv⟩

theorem processResponse_preserves_inv (invoker : Invoker) (st : TurnState)
    (r : StreamResponse) (h : DispatchInv st) :
    DispatchInv (processResponse invoker st r) := by
  unfold processResponse
  induction r.choices generalizing st with
  | nil => exact h
  | cons c cs ih =>
    rw [List.foldl_cons]
    refine ih _ ?_
    unfold processChoice
    cases c.content with
    | some content => exact processContent_preserves_inv invoker st content h
    | none => exact h

theorem processStream_preserves_inv (invoker : Invoker) (st : TurnState)
    (chunks : List (Except String StreamResponse)) (h : DispatchInv st) :
    DispatchInv (processStream invoker st chunks) := by
  induction chunks generalizing st with
  | nil => exact h
  | cons c chunks ih =>
    cases c with
    | ok r => exact ih _ (processResponse_preserves_inv invoker st r h)
    | error e => exact ⟨h.1, fun inv hinv => h.2 inv hinv⟩

theorem run_turn_invocations_eq (invoker : Invoker)
    (chunks : List (Except String StreamResponse))
    (contCreate : Except String (List (Except String StreamResponse)))
    (st : TurnState) (h : run_turn invoker (.ok chunks) contCreate = .ok st) :
    st.invocations = (processStream invoker initialTurnState chunks).invocations := by
  dsimp only [run_turn] at h
  injection h with h2
  subst h2
  dsimp only
  split
  · split
    · split
      · rfl
      · rfl
    · rfl
  · rfl

/-- **C3.** Within one turn, every tool-call signature (the name paired
with its canonical arguments JSON) is dispatched to the invoker at most
once: the audit log of invoker calls of a completed turn has
pairwise-distinct signatures, however often identical blocks are
re-extracted by later full-buffer rescans. -/
theorem C3_signature_dispatched_at_most_once (invoker : Invoker)
    (chunks : List (Except String StreamResponse))
    (contCreate : Except String (List (Except String StreamResponse)))
    (st : TurnState) (h : run_turn invoker (.ok chunks) contCreate = .ok st) :
    (st.invocations.map invSig).Nodup := by
  rw [run_turn_invocations_eq invoker chunks contCreate st h]
  exact (processStream_preserves_inv invoker initialTurnState chunks
    ⟨List.nodup_nil, fun inv hinv => absurd hinv (List.not_mem_nil inv)⟩).1

/-- A primary stream delivering the same tool-call block twice (the
second chunk's full-buffer rescan sees the first block again, and the
second block shares its signature). -/
def dupChunks : List (Except String StreamResponse) :=
  [Except.ok (StreamResponse.mk
    [StreamChoice.mk
      (some "<tool_call>\x7b\"name\":\"t\",\"arguments\":\x7b\x7d\x7d</tool_call>") none]),
   Except.ok (StreamResponse.mk
    [StreamChoice.mk
      (some "<tool_call>\x7b\"name\":\"t\",\"arguments\":\x7b\x7d\x7d</tool_call>")
      (some "stop")])]

/-- The state produced by running the duplicated-block turn. -/
def dupRunState : TurnState :=
  match run_turn okInvoker (.ok dupChunks) (.error "down") with
  | .ok st => st
  | .error _ => initialTurnState

theorem C3_signature_dispatched_at_most_once_witness :
    (dupRunState.invocations.map invSig).Nodup :=
  C3_signature_dispatched_at_most_once okInvoker dupChunks (.error "down")
    dupRunState rfl

/-- **C5.** For every dispatched call (a signature not yet executed): on
invoker success with result `r`, exactly
`"\n<tool_response>\n" ++ r ++ "\n</tool_response>"` is appended to the
buffer and forwarded to the sink; on invoker failure with message `m`,
exactly `"\n<tool_response>\nError: " ++ m ++ "\n</tool_response>"` is
appended and forwarded identically; both outcomes set
`needs_continuation`, and dispatch always yields a state — it has no
aborting branch. -/
theorem C5_tool_outcome_spliced_and_forwarded (invoker : Invoker)
    (st : TurnState) (name args : String)
    (h : st.executed_tools.contains (name ++ ":" ++ args) = false) :
    (∀ r, invoker name (parseArgsMap args) = .ok r →
      (dispatchCall invoker st (name, args)).full_response
          = st.full_response ++ ("\n<tool_response>\n" ++ r ++ "\n</tool_response>")
        ∧ (dispatchCall invoker st (name, args)).events
          = st.events ++
              [SinkEvent.toolCallEvent name args r,
               SinkEvent.chatToken ("\n<tool_response>\n" ++ r ++ "\n</tool_response>") false]
        ∧ (dispatchCall invoker st (name, args)).needs_continuation = true)
    ∧ (∀ m, invoker name (parseArgsMap args) = .error m →
      (dispatchCall invoker st (name, args)).full_response
          = st.full_response ++ ("\n<tool_response>\nError: " ++ m ++ "\n</tool_response>")
        ∧ (dispatchCall invoker st (name, args)).events
          = st.events ++
              [SinkEvent.chatToken
                ("\n<tool_response>\nError: " ++ m ++ "\n</tool_response>") false]
        ∧ (dispatchCall invoker st (name, args)).needs_continuation = true) := by
  have hstep : dispatchCall invoker st (name, args)
      = (let st2 : TurnState :=
          { st with
            executed_tools := (name ++ ":" ++ args) :: st.executed_tools
            invocations := st.invocations ++
              [ToolInvocationRec.mk name args (parseArgsMap args)] }
        match invoker name (parseArgsMap args) with
        | .ok tool_result =>
          { st2 with
            events := st2.events ++
              [SinkEvent.toolCallEvent name args tool_result,
               SinkEvent.chatToken
                ("\n<tool_response>\n" ++ tool_result ++ "\n</tool_response>") false]
            full_response := st2.full_response ++
              ("\n<tool_response>\n" ++ tool_result ++ "\n</tool_response>")
            needs_continuation := true }
        | .error e =>
          { st2 with
            events := st2.events ++
              [SinkEvent.chatToken
                ("\n<tool_response>\nError: " ++ e ++ "\n</tool_response>") false]
            full_response := st2.full_response ++
              ("\n<tool_response>\nError: " ++ e ++ "\n</tool_response>")
            needs_continuation := true }) := by
    unfold dispatchCall
    rw [if_neg (by rw [h]; exact Bool.false_ne_true)]
  constructor
  · intro r hr
    rw [hstep, hr]
    exact ⟨rfl, rfl, rfl⟩
  · intro m hm
    rw [hstep, hm]
    exact ⟨rfl, rfl, rfl⟩

theorem nextRegion_some_of_prefixed {p t : List Char} (hpt : p <+: t)
    {q : List Char × List Char} (h : nextRegion p = some q) :
    nextRegion t ≠ none := by
  cases hf : findSub openTag p with
  | none => simp [nextRegion, hf] at h
  | some i =>
    cases hc : findSub closeTag (p.drop i) with
    | none => simp [nextRegion, hf, hc] at h
    | some j =>
      have hopen_t := isPrefixOf_drop_of_prefixed hpt (findSub_isPrefixOf hf)
      rcases findSub_exists hopen_t with ⟨i', hi', hile⟩
      have hclose_p := findSub_isPrefixOf hc
      rw [List.drop_drop] at hclose_p
      have hclose_t := isPrefixOf_drop_of_prefixed hpt hclose_p
      have hshift : closeTag.isPrefixOf ((t.drop i').drop (i + j - i')) = true := by
        rw [List.drop_drop]
        have heq : i' + (i + j - i') = i + j := by omega
        rw [heq]
        exact hclose_t
      rcases findSub_exists hshift with ⟨k, hk, _⟩
      intro hcontra
      simp [nextRegion, hi', hk] at hcontra

theorem nextRegion_none_of_prefixed {p t : List Char} (hpt : p <+: t)
    (h : nextRegion t = none) : nextRegion p = none := by
  cases hn : nextRegion p with
  | none => rfl
  | some q => exact absurd h (nextRegion_some_of_prefixed hpt hn)

/-- The contents of the `delta.content` fields of one response's choices,
in order. -/
def choiceContents (cs : List StreamChoice) : List String :=
  cs.filterMap (fun c => c.content)

/-- All delta contents of a chunk list, in arrival order (error items
carry none). -/
def deltaStrings : List (Except String StreamResponse) → List String
  | [] => []
  | (Except.ok r) :: rest => choiceContents r.choices ++ deltaStrings rest
  | (Except.error _) :: rest => deltaStrings rest

def concatStrings : List String → String
  | [] => ""
  | s :: rest => s ++ concatStrings rest

/-- The sink events forwarding the given raw tokens. -/
def tokenEvents (ss : List String) : List SinkEvent :=
  ss.map (fun s => SinkEvent.chatToken s false)

theorem concatStrings_append (xs ys : List String) :
    concatStrings (xs ++ ys) = concatStrings xs ++ concatStrings ys := by
  induction xs with
  | nil => rw [List.nil_append]; exact (String.empty_append _).symm
  | cons x xs ih =>
    show x ++ concatStrings (xs ++ ys) = (x ++ concatStrings xs) ++ concatStrings ys
    rw [ih, String.append_assoc]

theorem toList_append_prefixed (a b c : String) :
    (a ++ b).toList <+: (a ++ (b ++ c)).toList := by
  show (a ++ b).data <+: (a ++ (b ++ c)).data
  rw [String.data_append, String.data_append, String.data_append, ← List.append_assoc]
  exact List.prefix_append _ _

theorem processContent_no_calls (invoker : Invoker) (st : TurnState)
    (content total : String)
    (hpre : (st.full_response ++ content).toList <+: total.toList)
    (hnone : nextRegion total.toList = none) :
    processContent invoker st content
      = { st with
          full_response := st.full_response ++ content
          events := st.events ++ [SinkEvent.chatToken content false] } := by
  unfold processContent
  dsimp only
  have hext : extract_all_tool_calls_from_xml (st.full_response ++ content) = [] :=
    extractLoopF_succ_none (nextRegion_none_of_prefixed hpre hnone)
  rw [hext]
  rfl

theorem processChoices_no_calls (invoker : Invoker) (cs : List StreamChoice)
    (st : TurnState) (total : String)
    (hnone : nextRegion total.toList = none)
    (hpre : (st.full_response ++ concatStrings (choiceContents cs)).toList
      <+: total.toList) :
    cs.foldl (processChoice invoker) st
      = { st with
          full_response := st.full_response ++ concatStrings (choiceContents cs)
          events := st.events ++ tokenEvents (choiceContents cs) } := by
  induction cs generalizing st with
  | nil =>
    rw [List.foldl_nil]
    show st = { st with
      full_response := st.full_response ++ ""
      events := st.events ++ [] }
    rw [String.append_empty, List.append_nil]
  | cons c cs ih =>
    rw [List.foldl_cons]
    cases hcc : c.content with
    | none =>
      have hpc : processChoice invoker st c = st := by
        unfold processChoice
        rw [hcc]
      have hcc2 : choiceContents (c :: cs) = choiceContents cs := by
        unfold choiceContents
        rw [List.filterMap_cons, hcc]
      rw [hpc, hcc2]
      rw [hcc2] at hpre
      exact ih st hpre
    | some content =>
      have hcc2 : choiceContents (c :: cs) = content :: choiceContents cs := by
        unfold choiceContents
        rw [List.filterMap_cons, hcc]
      rw [hcc2] at hpre ⊢
      have hpre0 : (st.full_response
          ++ (content ++ concatStrings (choiceContents cs))).toList <+: total.toList := hpre
      have hpre1 : (st.full_response ++ content).toList <+: total.toList :=
        List.IsPrefix.trans (toList_append_prefixed st.full_response content
          (concatStrings (choiceContents cs))) hpre0
      have hpc : processChoice invoker st c = processContent invoker st content := by
        unfold processChoice
        rw [hcc]
      rw [hpc, processContent_no_calls invoker st content total hpre1 hnone]
      have hpre2 : (((st.full_response ++ content)
          ++ concatStrings (choiceContents cs))).toList <+: total.toList := by
        rw [String.append_assoc]
        exact hpre0
      rw [ih _ hpre2]
      show ({ st with
        full_response := (st.full_response ++ content) ++ concatStrings (choiceContents cs)
        events := (st.events ++ [SinkEvent.chatToken content false])
          ++ tokenEvents (choiceContents cs) } : TurnState) = _
      rw [String.append_assoc, List.append_assoc]
      rfl

theorem processResponse_no_calls (invoker : Invoker) (st : TurnState)
    (r : StreamResponse) (total : String)
    (hnone : nextRegion total.toList = none)
    (hpre : (st.full_response ++ concatStrings (choiceContents r.choices)).toList
      <+: total.toList) :
    processResponse invoker st r
      = { st with
          full_response := st.full_response ++ concatStrings (choiceContents r.choices)
          events := st.events ++ tokenEvents (choiceContents r.choices) } :=
  processChoices_no_calls invoker r.choices st total hnone hpre

theorem processStream_no_calls (invoker : Invoker)
    (chunks : List (Except String StreamResponse)) (st : TurnState) (total : String)
    (hok : ∀ c ∈ chunks, ∃ r, c = Except.ok r)
    (hnone : nextRegion total.toList = none)
    (hpre : (st.full_response ++ concatStrings (deltaStrings chunks)).toList
      <+: total.toList) :
    processStream invoker st chunks
      = { st with
          full_response := st.full_response ++ concatStrings (deltaStrings chunks)
          events := st.events ++ tokenEvents (deltaStrings chunks) } := by
  induction chunks generalizing st with
  | nil =>
    show st = { st with
      full_response := st.full_response ++ ""
      events := st.events ++ [] }
    rw [String.append_empty, List.append_nil]
  | cons c chunks ih =>
    obtain ⟨r, rfl⟩ := hok c (List.mem_cons_self c chunks)
    have hds : deltaStrings (Except.ok r :: chunks)
        = choiceContents r.choices ++ deltaStrings chunks := rfl
    rw [hds] at hpre ⊢
    rw [concatStrings_append] at hpre ⊢
    have hpreR : (st.full_response ++ concatStrings (choiceContents r.choices)).toList
        <+: total.toList := by
      refine List.IsPrefix.trans ?_ hpre
      rw [← String.append_assoc]
      exact (String.append_assoc _ _ _) ▸ toList_append_prefixed st.full_response
        (concatStrings (choiceContents r.choices)) (concatStrings (deltaStrings chunks))
    show processStream invoker (processResponse invoker st r) chunks = _
    rw [processResponse_no_calls invoker st r total hnone hpreR]
    have hpre2 : (((st.full_response ++ concatStrings (choiceContents r.choices))
        ++ concatStrings (deltaStrings chunks))).toList <+: total.toList := by
      rw [String.append_assoc]
      exact hpre
    rw [ih _ (fun c hc => hok c (List.mem_cons_of_mem _ hc)) hpre2]
    show ({ st with
      full_response := (st.full_response ++ concatStrings (choiceContents r.choices))
        ++ concatStrings (deltaStrings chunks)
      events := (st.events ++ tokenEvents (choiceContents r.choices))
        ++ tokenEvents (deltaStrings chunks) } : TurnState) = _
    rw [String.append_assoc, List.append_assoc]
    show _ = ({ st with
      full_response := st.full_response
        ++ (concatStrings (choiceContents r.choices) ++ concatStrings (deltaStrings chunks))
      events := st.events ++ tokenEvents (choiceContents r.choices ++ deltaStrings chunks) }
        : TurnState)
    rw [show tokenEvents (choiceContents r.choices ++ deltaStrings chunks)
        = tokenEvents (choiceContents r.choices) ++ tokenEvents (deltaStrings chunks)
      from List.map_append _ _ _]

/-- **C6.** A primary stream that terminates with a finished chunk and
whose accumulated text contains no complete tool-call region triggers no
continuation round — the result does not depend on the continuation
stream at all and `needs_continuation` stays `false` — and the returned
final text is exactly the concatenation of all `delta_text` contents in
arrival order (with the sink seeing exactly those tokens plus the final
finished signal). -/
theorem C6_no_toolcalls_no_continuation (invoker : Invoker)
    (chunks : List (Except String StreamResponse))
    (contCreate : Except String (List (Except String StreamResponse)))
    (hok : ∀ c ∈ chunks, ∃ r, c = Except.ok r)
    (hfin : ∃ r, chunks.getLast? = some (Except.ok r)
      ∧ ∃ c ∈ r.choices, c.finish_reason.isSome = true)
    (hnone : toolCallRegions (concatStrings (deltaStrings chunks)).toList = []) :
    run_turn invoker (.ok chunks) contCreate
      = .ok { full_response := concatStrings (deltaStrings chunks)
              executed_tools := []
              needs_continuation := false
              events := tokenEvents (deltaStrings chunks) ++ [SinkEvent.chatToken "" true]
              invocations := [] } := by
  have hnr : nextRegion (concatStrings (deltaStrings chunks)).toList = none :=
    (toolCallRegionsF_nil_iff (concatStrings (deltaStrings chunks)).toList.length
      (concatStrings (deltaStrings chunks)).toList).mp hnone
  have hps := processStream_no_calls invoker chunks initialTurnState
    (concatStrings (deltaStrings chunks)) hok hnr
    (by
      show (("" : String) ++ concatStrings (deltaStrings chunks)).toList <+: _
      rw [String.empty_append])
  dsimp only [run_turn]
  rw [hps]
  rfl

/-- A two-chunk stream with no tool-call markup, ending in a finished
chunk. -/
def plainChunks : List (Except String StreamResponse) :=
  [Except.ok (StreamResponse.mk [StreamChoice.mk (some "hello") none]),
   Except.ok (StreamResponse.mk [StreamChoice.mk (some " world") (some "stop")])]

theorem C6_no_toolcalls_no_continuation_witness :
    run_turn okInvoker (.ok plainChunks) (.error "unreachable")
      = .ok { full_response := concatStrings (deltaStrings plainChunks)
              executed_tools := []
              needs_continuation := false
              events := tokenEvents (deltaStrings plainChunks) ++ [SinkEvent.chatToken "" true]
              invocations := [] }
    ∧ concatStrings (deltaStrings plainChunks) = "hello world" := by
  constructor
  · refine C6_no_toolcalls_no_continuation okInvoker plainChunks (.error "unreachable")
      ?_ ?_ rfl
    · intro c hc
      rcases List.mem_cons.mp hc with rfl | hc2
      · exact ⟨_, rfl⟩
      · rcases List.mem_cons.mp hc2 with rfl | hc3
        · exact ⟨_, rfl⟩
        · cases hc3
    · exact ⟨StreamResponse.mk [StreamChoice.mk (some " world") (some "stop")], rfl,
        StreamChoice.mk (some " world") (some "stop"),
        List.mem_singleton.mpr rfl, rfl⟩
  · rfl

/-- An invoker whose tools always return the text `A`. -/
def invokerA : Invoker := fun _ _ => Except.ok "A"

/-- A primary stream emitting one complete tool call. -/
def toolPrimChunks : List (Except String StreamResponse) :=
  [Except.ok (StreamResponse.mk
    [StreamChoice.mk (some "<tool_call>\x7b\"name\":\"t\",\"arguments\":\x7b\x7d\x7d</tool_call>")
      (some "tool_calls")])]

/-- The tool-augmented buffer after the primary phase of
`toolPrimChunks` under `invokerA`. -/
def toolPrimText : String :=
  "<tool_call>\x7b\"name\":\"t\",\"arguments\":\x7b\x7d\x7d</tool_call>\n<tool_response>\nA\n</tool_response>"

/-- A continuation stream whose whole output is the single space " ". -/
def wsContChunks : List (Except String StreamResponse) :=
  [Except.ok (StreamResponse.mk [StreamChoice.mk (some " ") none])]

/-- A continuation stream whose output is "done". -/
def doneContChunks : List (Except String StreamResponse) :=
  [Except.ok (StreamResponse.mk [StreamChoice.mk (some "done") (some "stop")])]

deriving instance DecidableEq for Except

/-- Observation: did the turn return `.ok`? -/
def runIsOk : Except String TurnState → Bool
  | .ok _ => true
  | .error _ => false

/-- Observation: the returned final text (the error text on failure). -/
def runFullResponse : Except String TurnState → String
  | .ok st => st.full_response
  | .error e => e

/-- Observation: the sink log of a completed turn. -/
def runEvents : Except String TurnState → List SinkEvent
  | .ok st => st.events
  | .error _ => []

/-- **C7, counterexample.** The claim says the continuation's streamed
output is appended to the final result.  With a whitespace-only
continuation output " ", the token is forwarded to the sink but the final
text stays the pre-continuation buffer — it is not `buffer ++ " "`
(`continued_response.trim().is_empty()` gates the append, `chat.rs:828`). -/
theorem C7_counterexample_whitespace_continuation_dropped :
    continue_conversation_after_tools (.ok wsContChunks)
      = (.ok " ", [SinkEvent.chatToken " " false])
    ∧ runIsOk (run_turn invokerA (.ok toolPrimChunks) (.ok wsContChunks)) = true
    ∧ runFullResponse (run_turn invokerA (.ok toolPrimChunks) (.ok wsContChunks))
      = toolPrimText
    ∧ runEvents (run_turn invokerA (.ok toolPrimChunks) (.ok wsContChunks))
      = [SinkEvent.chatToken
          "<tool_call>\x7b\"name\":\"t\",\"arguments\":\x7b\x7d\x7d</tool_call>" false,
         SinkEvent.toolCallEvent "t" "\x7b\x7d" "A",
         SinkEvent.chatToken "\n<tool_response>\nA\n</tool_response>" false,
         SinkEvent.chatToken " " false,
         SinkEvent.chatToken "" true]
    ∧ toolPrimText ≠ toolPrimText ++ " " :=
  ⟨by decide, by decide, by decide, by decide, by decide⟩

/-- **C7, amended.** When `needs_continuation` holds and the buffer
contains a `tool_response` after the primary stream ends, exactly one
continuation request is issued; its message list is the same system
directive, the prior conversation messages in order, and one additional
assistant message carrying the whole tool-augmented buffer verbatim
(`previous ++ [assistant buffer]` whenever `previous` starts with that
system message); the continuation's streamed output is forwarded to the
sink, and appended to the final text unless it is empty or
whitespace-only (in which case the final text is left unchanged); the tag
scanner is never run on it — the turn's invocation log stays the primary
phase's log whatever the continuation output contains. -/
theorem C7_amended_single_unscanned_continuation
    (invoker : Invoker) (chunks : List (Except String StreamResponse))
    (contCreate : Except String (List (Except String StreamResponse)))
    (sys buf : String) (restPrev : List ChatMessage)
    (o : String) (evs : List SinkEvent)
    (hcond : ((processStream invoker initialTurnState chunks).needs_continuation
        && check_if_continuation_needed
            (processStream invoker initialTurnState chunks).full_response) = true)
    (hcont : continue_conversation_after_tools contCreate = (.ok o, evs)) :
    continuationMessages sys (ChatMessage.mk "system" sys :: restPrev) buf
      = (ChatMessage.mk "system" sys :: restPrev) ++ [ChatMessage.mk "assistant" buf]
    ∧ run_turn invoker (.ok chunks) contCreate
      = .ok (let stP := processStream invoker initialTurnState chunks
             if trimIsEmpty o then
               { stP with events := stP.events ++ evs ++ [SinkEvent.chatToken "" true] }
             else
               { stP with
                 full_response := stP.full_response ++ o
                 events := stP.events ++ evs ++ [SinkEvent.chatToken "" true] }) := by
  constructor
  · rfl
  · dsimp only [run_turn]
    rw [if_pos hcond, hcont]
    dsimp only
    by_cases ht : trimIsEmpty o = true
    · rw [if_pos ht, if_pos ht]
    · rw [if_neg ht, if_neg ht]

theorem C7_amended_single_unscanned_continuation_witness :
    continuationMessages "S" (ChatMessage.mk "system" "S"
        :: [ChatMessage.mk "user" "hi"]) "BUF"
      = (ChatMessage.mk "system" "S" :: [ChatMessage.mk "user" "hi"])
        ++ [ChatMessage.mk "assistant" "BUF"]
    ∧ run_turn invokerA (.ok toolPrimChunks) (.ok doneContChunks)
      = .ok (let stP := processStream invokerA initialTurnState toolPrimChunks
             if trimIsEmpty "done" then
               { stP with events := stP.events ++ [SinkEvent.chatToken "done" false]
                  ++ [SinkEvent.chatToken "" true] }
             else
               { stP with
                 full_response := stP.full_response ++ "done"
                 events := stP.events ++ [SinkEvent.chatToken "done" false]
                  ++ [SinkEvent.chatToken "" true] }) :=
  C7_amended_single_unscanned_continuation invokerA toolPrimChunks (.ok doneContChunks)
    "S" "BUF" [ChatMessage.mk "user" "hi"] "done" [SinkEvent.chatToken "done" false]
    (by decide) (by decide)

/-- **C8.** A hard error is returned to the caller exactly when the
primary stream cannot be created; a transport error after the stream is
established only stops consumption of the remaining chunks, preserving
the state accumulated so far and adding a `chat-error` event; and a
continuation failure is rendered as the inline
`"\n\n[Continuation Error: …]"` annotation appended to the final text,
with the turn still returning `.ok`. -/
theorem C8_hard_error_only_on_primary_create_failure (invoker : Invoker) :
    (∀ e contCreate, run_turn invoker (.error e) contCreate
        = .error ("Failed to create chat stream: " ++ e))
    ∧ (∀ chunks contCreate, ∃ st, run_turn invoker (.ok chunks) contCreate = .ok st)
    ∧ (∀ (st : TurnState) pre e post, (∀ c ∈ pre, ∃ r, c = Except.ok r) →
        processStream invoker st (pre ++ Except.error e :: post)
          = { processStream invoker st pre with
              events := (processStream invoker st pre).events
                ++ [SinkEvent.chatError ("Stream error: " ++ e)] })
    ∧ (∀ chunks contCreate m evs,
        ((processStream invoker initialTurnState chunks).needs_continuation
          && check_if_continuation_needed
              (processStream invoker initialTurnState chunks).full_response) = true →
        continue_conversation_after_tools contCreate = (.error m, evs) →
        run_turn invoker (.ok chunks) contCreate
          = .ok { processStream invoker initialTurnState chunks with
              full_response := (processStream invoker initialTurnState chunks).full_response
                ++ ("\n\n[Continuation Error: " ++ m ++ "]")
              events := (processStream invoker initialTurnState chunks).events ++ evs
                ++ [SinkEvent.chatToken ("\n\n[Continuation Error: " ++ m ++ "]") false]
                ++ [SinkEvent.chatToken "" true] }) := by
  refine ⟨fun e contCreate => rfl, fun chunks contCreate => ⟨_, rfl⟩, ?_, ?_⟩
  · intro st pre e post hok
    induction pre generalizing st with
    | nil => rfl
    | cons c pre ih =>
      obtain ⟨r, rfl⟩ := hok c (List.mem_cons_self c pre)
      show processStream invoker (processResponse invoker st r) (pre ++ Except.error e :: post)
        = _
      exact ih (processResponse invoker st r) (fun c hc => hok c (List.mem_cons_of_mem _ hc))
  · intro chunks contCreate m evs hcond hcont
    dsimp only [run_turn]
    rw [if_pos hcond, hcont]

theorem C8_hard_error_only_witness :
    run_turn invokerA (.error "no model") (.ok [])
      = .error ("Failed to create chat stream: " ++ "no model")
    ∧ processStream invokerA initialTurnState
        ([Except.ok (StreamResponse.mk [StreamChoice.mk (some "hi ") none])]
          ++ Except.error "boom"
            :: [Except.ok (StreamResponse.mk [StreamChoice.mk (some "never") none])])
      = { processStream invokerA initialTurnState
            [Except.ok (StreamResponse.mk [StreamChoice.mk (some "hi ") none])] with
          events := (processStream invokerA initialTurnState
              [Except.ok (StreamResponse.mk [StreamChoice.mk (some "hi ") none])]).events
            ++ [SinkEvent.chatError ("Stream error: " ++ "boom")] }
    ∧ run_turn invokerA (.ok toolPrimChunks) (.error "down")
      = .ok { processStream invokerA initialTurnState toolPrimChunks with
          full_response := (processStream invokerA initialTurnState toolPrimChunks).full_response
            ++ ("\n\n[Continuation Error: "
              ++ "Failed to create continuation stream: down" ++ "]")
          events := (processStream invokerA initialTurnState toolPrimChunks).events ++ []
            ++ [SinkEvent.chatToken ("\n\n[Continuation Error: "
              ++ "Failed to create continuation stream: down" ++ "]") false]
            ++ [SinkEvent.chatToken "" true] } :=
  ⟨(C8_hard_error_only_on_primary_create_failure invokerA).1 "no model" (.ok []),
   (C8_hard_error_only_on_primary_create_failure invokerA).2.2.1 initialTurnState
     [Except.ok (StreamResponse.mk [StreamChoice.mk (some "hi ") none])] "boom"
     [Except.ok (StreamResponse.mk [StreamChoice.mk (some "never") none])]
     (fun c hc => by
       rcases List.mem_singleton.mp hc with rfl
       exact ⟨_, rfl⟩),
   (C8_hard_error_only_on_primary_create_failure invokerA).2.2.2 toolPrimChunks
     (.error "down") "Failed to create continuation stream: down" []
     (by decide) (by decide)⟩

theorem C5_tool_outcome_spliced_witness :
    initialTurnState.executed_tools.contains ("t" ++ ":" ++ "\x7b\x7d") = false
    ∧ okInvoker "t" (parseArgsMap "\x7b\x7d") = .ok "ok"
    ∧ errInvoker "t" (parseArgsMap "\x7b\x7d") = .error "boom"
    ∧ ((dispatchCall okInvoker initialTurnState ("t", "\x7b\x7d")).full_response
          = "" ++ ("\n<tool_response>\nok\n</tool_response>")
        ∧ (dispatchCall okInvoker initialTurnState ("t", "\x7b\x7d")).events
          = [] ++
              [SinkEvent.toolCallEvent "t" "\x7b\x7d" "ok",
               SinkEvent.chatToken ("\n<tool_response>\nok\n</tool_response>") false]
        ∧ (dispatchCall okInvoker initialTurnState ("t", "\x7b\x7d")).needs_continuation = true)
    ∧ ((dispatchCall errInvoker initialTurnState ("t", "\x7b\x7d")).full_response
          = "" ++ ("\n<tool_response>\nError: boom\n</tool_response>")
        ∧ (dispatchCall errInvoker initialTurnState ("t", "\x7b\x7d")).events
          = [] ++
              [SinkEvent.chatToken ("\n<tool_response>\nError: boom\n</tool_response>") false]
        ∧ (dispatchCall errInvoker initialTurnState ("t", "\x7b\x7d")).needs_continuation = true) :=
  ⟨rfl, rfl, rfl,
    (C5_tool_outcome_spliced_and_forwarded okInvoker initialTurnState "t" "\x7b\x7d" rfl).1
      "ok" rfl,
    (C5_tool_outcome_spliced_and_forwarded errInvoker initialTurnState "t" "\x7b\x7d" rfl).2
      "boom" rfl⟩

end SparrowAI
